import Mathlib

set_option maxRecDepth 100000

/-!
Verification development for the ACRA structured-presentation editor.

Strings from the JavaScript source are modelled as `List Char`.  The
pattern-matching primitives of the source (`String.prototype.replace` with a
plain-string pattern, and the global regex matches of the form
`/<tag>(.*?)<\/tag>/g` used by the annotation classifier) are embedded as
executable functions on `List Char` with the same first-occurrence semantics.
-/

namespace Acra

/-- JS `text.replace(pat, rep)` with a plain-string pattern: replaces the first
occurrence of `pat` in `text` (the whole text is returned unchanged when `pat`
does not occur; an empty pattern matches at position 0).  The `$`-escape
processing of JS replacement strings is not modelled; theorems that rely on
this function restrict phrases to `$`-free text. -/
def replaceFirst (pat rep : List Char) : List Char → List Char
  | [] => if pat.isPrefixOf ([] : List Char) then rep else []
  | c :: t =>
    if pat.isPrefixOf (c :: t) then rep ++ (c :: t).drop pat.length
    else c :: replaceFirst pat rep t

/-- Whether `pat` occurs as a contiguous substring of `t`. -/
def containsSub (pat : List Char) : List Char → Bool
  | [] => pat.isPrefixOf ([] : List Char)
  | c :: t => pat.isPrefixOf (c :: t) || containsSub pat t

/-- Helper for the lazy capture `(.*?)` of the classifier regexes: starting
right after an opening tag, find the earliest occurrence of `closeT`; the
captured text may not contain a newline (JS `.` does not match line
terminators).  Returns the capture and the remainder after the closing tag. -/
def findCapture (closeT : List Char) : List Char → Option (List Char × List Char)
  | [] => if closeT.isPrefixOf ([] : List Char) then some ([], []) else none
  | c :: t =>
    if closeT.isPrefixOf (c :: t) then some ([], (c :: t).drop closeT.length)
    else if c = '\n' then none
    else (findCapture closeT t).map fun p => (c :: p.1, p.2)

/-- Fuel-indexed worker for `extractTagged` (structural recursion so that the
kernel can evaluate it; every call site supplies enough fuel, see
`extractTaggedAux_fuel`).  At each scan position: if the opening tag matches
and a newline-free capture up to the closing tag exists, emit the capture and
resume after the closing tag; otherwise advance the scan by one character. -/
def extractTaggedAux (openT closeT : List Char) : Nat → List Char → List (List Char)
  | 0, _ => []
  | fuel + 1, t =>
    if openT ≠ [] ∧ openT.isPrefixOf t then
      match findCapture closeT (t.drop openT.length) with
      | some (cap, rest) => cap :: extractTaggedAux openT closeT fuel rest
      | none =>
        match t with
        | [] => []
        | _ :: t' => extractTaggedAux openT closeT fuel t'
    else
      match t with
      | [] => []
      | _ :: t' => extractTaggedAux openT closeT fuel t'

/-- JS `html.match(/OPEN(.*?)CLOSE/g)` followed by stripping the two tags from
each match: returns the list of captured spans, scanning left to right and
resuming after each full match. -/
def extractTagged (openT closeT t : List Char) : List (List Char) :=
  extractTaggedAux openT closeT (t.length + 1) t

/-- The exact opening tag the source emits and matches for advancements. -/
def openGreen : List Char := "<span style=\"color: green;\">".data

/-- The exact opening tag the source emits and matches for minor (small) alerts. -/
def openOrange : List Char := "<span style=\"color: orange;\">".data

/-- The exact opening tag the source emits and matches for critical alerts. -/
def openRed : List Char := "<span style=\"color: red; font-weight: bold;\">".data

/-- The closing tag shared by all three tiers. -/
def closeSpan : List Char := "</span>".data

/-- The three alert tiers, with the source's field names
(`advancements` / `small_alerts` / `critical_alerts`). -/
structure Alerts where
  advancements : List (List Char)
  small_alerts : List (List Char)
  critical_alerts : List (List Char)
deriving DecidableEq, Repr

def emptyAlerts : Alerts := ⟨[], [], []⟩

/-- `extractAlertsFromHtml` (PptxViewer, part_001 lines 167-202): three
independent global regex matches over the same html, one per tier, each
matching its exact opening tag string. -/
def extractAlertsFromHtml (htmlContent : List Char) : Alerts where
  advancements := extractTagged openGreen closeSpan htmlContent
  small_alerts := extractTagged openOrange closeSpan htmlContent
  critical_alerts := extractTagged openRed closeSpan htmlContent

/-- The markup re-injection performed by `convertProjectDataToSlides`
(part_001 lines 290-323): for each phrase of each tier, in tier order
(advancements, then small, then critical) and list order, replace the first
occurrence of the phrase in the running text with the phrase wrapped in the
tier's span tag. -/
def injectMarkup (information : List Char) (alerts : Alerts) : List Char :=
  alerts.critical_alerts.foldl
    (fun h al => replaceFirst al (openRed ++ al ++ closeSpan) h)
    (alerts.small_alerts.foldl
      (fun h al => replaceFirst al (openOrange ++ al ++ closeSpan) h)
      (alerts.advancements.foldl
        (fun h adv => replaceFirst adv (openGreen ++ adv ++ closeSpan) h) information))

/-- `blocksScan p u`: no suffix of `u` can start a match of `p`, regardless of
what text follows `u`.  Used to skip over plain text and over foreign tags when
scanning for the opening tag `p`. -/
def blocksScan (p u : List Char) : Prop :=
  ∀ y ∈ u.tails, y = [] ∨ (p.isPrefixOf y = false ∧ y.isPrefixOf p = false)

instance (p u : List Char) : Decidable (blocksScan p u) := by
  unfold blocksScan
  infer_instance

/-! ### Well-formed marked texts

A marked text is a sequence of segments: plain text, or a phrase wrapped in
one of the three color tags.  `extractAlertsFromHtml` on the rendering of such
a sequence recovers exactly the per-tier phrase lists, provided the plain
parts contain no `'<'` and the phrases contain neither `'<'` nor a newline
(otherwise the regex scans can cut across tag boundaries). -/

inductive Tier where
  | green
  | orange
  | red
deriving DecidableEq, Repr

def openOf : Tier → List Char
  | .green => openGreen
  | .orange => openOrange
  | .red => openRed

inductive Seg where
  | plain (s : List Char)
  | tagged (k : Tier) (s : List Char)
deriving DecidableEq, Repr

def renderSeg : Seg → List Char
  | .plain s => s
  | .tagged k s => openOf k ++ s ++ closeSpan

def renderSegs (L : List Seg) : List Char := (L.map renderSeg).flatten

/-- The phrases of tier `k`, in order of appearance. -/
def tierContents (k : Tier) (L : List Seg) : List (List Char) :=
  L.filterMap fun sg =>
    match sg with
    | .tagged k' s => if k' = k then some s else none
    | .plain _ => none

def segWf : Seg → Prop
  | .plain s => ∀ ch ∈ s, ch ≠ '<'
  | .tagged _ s => (∀ ch ∈ s, ch ≠ '<') ∧ (∀ ch ∈ s, ch ≠ '\n')

instance : DecidablePred segWf := by
  intro sg
  cases sg <;> (unfold segWf; infer_instance)

def segsWf (L : List Seg) : Prop := ∀ sg ∈ L, segWf sg

instance (L : List Seg) : Decidable (segsWf L) := by
  unfold segsWf
  infer_instance

/-- `landingOK x φ = true`: the phrase `φ` has no occurrence in `x ++ φ`
starting strictly before position `x.length`.  Under this condition the first
occurrence of `φ` in `x ++ φ ++ y` is the designated one. -/
def landingOK (x φ : List Char) : Bool :=
  (List.range x.length).all fun j => !(φ.isPrefixOf ((x ++ φ).drop j))

/-! ### Phase processing of `injectMarkup`

`injectMarkup` performs three passes of first-occurrence replacements, one per
tier.  A pass is described by a list of `(gap, phrase)` pairs: the plain text
is the concatenation of `gap ++ phrase` blocks, and after the pass each phrase
is wrapped in the pass's tag.  `phaseOKB` states that each replacement lands
on its designated occurrence. -/

def plainOfParts (parts : List (List Char × List Char)) : List Char :=
  (parts.map fun p => p.1 ++ p.2).flatten

def markedOfParts (openT : List Char) (parts : List (List Char × List Char)) : List Char :=
  (parts.map fun p => p.1 ++ openT ++ p.2 ++ closeSpan).flatten

def phaseOKB (openT : List Char) : List Char → List (List Char × List Char) → Bool
  | _, [] => true
  | pre, (g, φ) :: rest =>
    landingOK (pre ++ g) φ && phaseOKB openT (pre ++ g ++ openT ++ φ ++ closeSpan) rest

/-! ### Tier-ordered marked documents -/

/-- A decomposition of a plain information text into per-tier `(gap, phrase)`
blocks, in the order the three injection passes traverse them, followed by a
trailing plain part. -/
structure MarkedParts where
  advParts : List (List Char × List Char)
  smallParts : List (List Char × List Char)
  critParts : List (List Char × List Char)
  tailPart : List Char
deriving DecidableEq, Repr

def MarkedParts.plainText (D : MarkedParts) : List Char :=
  plainOfParts D.advParts ++ plainOfParts D.smallParts ++
    plainOfParts D.critParts ++ D.tailPart

def MarkedParts.markedText (D : MarkedParts) : List Char :=
  markedOfParts openGreen D.advParts ++ markedOfParts openOrange D.smallParts ++
    markedOfParts openRed D.critParts ++ D.tailPart

def MarkedParts.alerts (D : MarkedParts) : Alerts where
  advancements := D.advParts.map Prod.snd
  small_alerts := D.smallParts.map Prod.snd
  critical_alerts := D.critParts.map Prod.snd

/-- The segments making up one pass of a decomposition: plain gap, then the
tagged phrase, for each block. -/
def partsSegs (k : Tier) (parts : List (List Char × List Char)) : List Seg :=
  (parts.map fun p => [Seg.plain p.1, Seg.tagged k p.2]).flatten

/-- The decomposition as a segment sequence. -/
def MarkedParts.segs (D : MarkedParts) : List Seg :=
  partsSegs Tier.green D.advParts ++ partsSegs Tier.orange D.smallParts ++
    partsSegs Tier.red D.critParts ++ [Seg.plain D.tailPart]

/-- Every replacement of each of the three injection passes lands on its
designated occurrence. -/
def MarkedParts.injectOK (D : MarkedParts) : Bool :=
  phaseOKB openGreen [] D.advParts &&
  phaseOKB openOrange (markedOfParts openGreen D.advParts) D.smallParts &&
  phaseOKB openRed
    (markedOfParts openGreen D.advParts ++ markedOfParts openOrange D.smallParts)
    D.critParts

/-- A decomposition on which the embedding and the JS string primitives agree
and on which the round trip is provable: tag-free and newline-free segments,
`$`-free phrases (JS replacement strings treat `$` specially, which the
embedding does not model), and every replacement landing on its designated
occurrence. -/
def MarkedParts.clean (D : MarkedParts) : Prop :=
  segsWf D.segs ∧
    (∀ φ ∈ (D.advParts ++ D.smallParts ++ D.critParts).map Prod.snd, '$' ∉ φ) ∧
    D.injectOK = true

instance (D : MarkedParts) : Decidable D.clean := by
  unfold MarkedParts.clean
  infer_instance

/-! ### The `project_data` payload and the slide/table conversion (part_001) -/

/-- One entry of `project_data.activities`. -/
structure ProjInfo where
  information : List Char
  alerts : Alerts
deriving DecidableEq, Repr

/-- The `project_data` payload.  JS objects keep string keys in insertion
order, so `activities` is modelled as an association list; `upcoming_events`
is `none` when the JS field is absent (`undefined`). -/
structure ProjectData where
  activities : List (List Char × ProjInfo)
  upcoming_events : Option (List Char)
  metadata_title : Option (List Char)
deriving DecidableEq, Repr

/-- Style fields carried by the table cells built in
`convertProjectDataToSlides`; absent JS fields are the defaults. -/
structure TStyle where
  bold : Bool := false
  bgColor : Option (List Char) := none
deriving DecidableEq, Repr

structure TCell where
  text : List Char
  html : Bool := false
  rowSpan : Nat := 1
  colSpan : Nat := 1
  style : TStyle := {}
deriving DecidableEq, Repr

instance : Inhabited TCell := ⟨{ text := [] }⟩

structure ConvTable where
  rows : List (List TCell)
  hasHeader : Bool
  headerStyle : TStyle
  colsCount : Nat
  colWidths : List Nat
deriving DecidableEq, Repr

inductive SItem where
  | text (content : List Char) (isTitle : Bool)
  | table (tbl : ConvTable)
deriving DecidableEq, Repr

structure SlideModel where
  title : List Char
  structuredContent : List SItem
  tables : List ConvTable
deriving DecidableEq, Repr

/-- JS `forEach` with an index argument. -/
def mapIdx (f : Nat → α → β) : Nat → List α → List β
  | _, [] => []
  | i, a :: as => f i a :: mapIdx f (i + 1) as

/-- JS `x || d` for an optional string: `undefined` and `""` both give `d`. -/
def jsOrElse (o : Option (List Char)) (d : List Char) : List Char :=
  match o with
  | some t => if t = [] then d else t
  | none => d

def headerRowCells : List TCell :=
  [{ text := "Projet".data, style := { bold := true, bgColor := some "F0F0F0".data } },
   { text := "Information".data, style := { bold := true, bgColor := some "F0F0F0".data } },
   { text := "Événements à venir".data, style := { bold := true, bgColor := some "F0F0F0".data } }]

/-- One data row of the generated project table (part_001 lines 290-342):
bold project-name cell, html information cell with the alert markup injected,
and — on the first row only — the upcoming-events cell spanning all project
rows. -/
def projectRow (pd : ProjectData) (i : Nat) (entry : List Char × ProjInfo) : List TCell :=
  [{ text := entry.1, style := { bold := true } },
   { text := injectMarkup entry.2.information entry.2.alerts, html := true }] ++
  (if i = 0 then
    [{ text := jsOrElse pd.upcoming_events [],
       rowSpan := pd.activities.length,
       style := { bgColor := some "F5F5F5".data } }]
   else [])

def mainTable (pd : ProjectData) : ConvTable where
  rows := headerRowCells :: mapIdx (projectRow pd) 0 pd.activities
  hasHeader := true
  headerStyle := { bold := true, bgColor := some "F0F0F0".data }
  colsCount := 3
  colWidths := [150, 450, 250]

/-- The single slide `convertProjectDataToSlides` builds (part_001 lines
266-368): the title text item and, when there is at least one activity, the
project table. -/
def convertSlide (pd : ProjectData) : SlideModel where
  title := jsOrElse pd.metadata_title "Présentation sans titre".data
  structuredContent :=
    [SItem.text (jsOrElse pd.metadata_title "Présentation sans titre".data) true] ++
      (if pd.activities.isEmpty then [] else [SItem.table (mainTable pd)])
  tables := if pd.activities.isEmpty then [] else [mainTable pd]

/-- `convertProjectDataToSlides` (part_001 lines 262-371). -/
def convertProjectDataToSlides (pd : ProjectData) : List SlideModel :=
  [convertSlide pd]

/-- JS object read `m[k]`. -/
def objGet (m : List (List Char × ProjInfo)) (k : List Char) : Option ProjInfo :=
  (m.find? (fun p => p.1 == k)).map Prod.snd

/-- JS object write `m[k] = v`: updates the entry in place when the key
exists, otherwise appends it (JS insertion order). -/
def objSet (m : List (List Char × ProjInfo)) (k : List Char) (v : ProjInfo) :
    List (List Char × ProjInfo) :=
  if m.any (fun p => p.1 == k) then
    m.map (fun p => if p.1 == k then (k, v) else p)
  else m ++ [(k, v)]

/-- JS `delete m[k]`. -/
def objDelete (m : List (List Char × ProjInfo)) (k : List Char) :
    List (List Char × ProjInfo) :=
  m.filter (fun p => !(p.1 == k))

/-- The body of the row loop of `updateProjectData` (part_001 lines 795-843):
skip rows with fewer than two cells or an empty project name; otherwise store
the information text and the alerts re-extracted from it. -/
def processDataRow (acc : List (List Char × ProjInfo)) (row : List TCell) :
    List (List Char × ProjInfo) :=
  if row.length < 2 then acc
  else
    let projectName := ((row.get? 0).getD default).text
    if projectName = [] then acc
    else
      let information := ((row.get? 1).getD default).text
      objSet acc projectName
        { information := information, alerts := extractAlertsFromHtml information }

/-- `updateProjectData` (part_001 lines 767-847): reduce the slide set back to
a `project_data` payload.  `upcoming_events` is read from the third cell of
the first data row when present; the activities are rebuilt from the data
rows; the metadata is copied from the original payload. -/
def updateProjectData (slides : List SlideModel) (originalData : ProjectData) :
    ProjectData :=
  match slides with
  | [] => originalData
  | mainSlide :: _ =>
    let upcoming : Option (List Char) :=
      match mainSlide.tables.head? with
      | some table =>
        if 1 < table.rows.length then
          match table.rows.get? 1 with
          | some firstDataRow =>
            if 3 ≤ firstDataRow.length then
              some (((firstDataRow.get? 2).getD default).text)
            else none
          | none => none
        else none
      | none => none
    let acts : List (List Char × ProjInfo) :=
      match mainSlide.tables.head? with
      | some table => (table.rows.drop 1).foldl processDataRow []
      | none => []
    { activities := acts, upcoming_events := upcoming,
      metadata_title := originalData.metadata_title }

/-- Both conversion directions composed, with the original payload supplied as
`updateProjectData`'s second argument, exactly as the source calls it. -/
def roundTripProjectData (pd : ProjectData) : ProjectData :=
  updateProjectData (convertProjectDataToSlides pd) pd

def modifyAt (f : α → α) : Nat → List α → List α
  | _, [] => []
  | 0, a :: as => f a :: as
  | n + 1, a :: as => a :: modifyAt f n as

def setCellText (rows : List (List TCell)) (r c : Nat) (txt : List Char) :
    List (List TCell) :=
  modifyAt (fun row => modifyAt (fun cell => { cell with text := txt }) c row) r rows

/-- The table-cell branch of `handleStructuredContentEdit` (part_001 lines
595-713) for slide index 0 (`convertProjectDataToSlides` always produces
exactly one slide).  The cell text is updated first; afterwards the branch on
the cell position updates the payload: header row — nothing; column 0 — read
the project name back from the just-updated cell and move that entry;
column 1 — overwrite the information and clear the alerts; column 2 — set
`upcoming_events`.  When the coordinates do not resolve, the handler falls
through and the payload is returned unchanged. -/
def handleTableCellEdit (pd : ProjectData) (elementIndex rowIndex cellIndex : Nat)
    (updatedContent : List Char) : ProjectData :=
  match (convertProjectDataToSlides pd).head? with
  | none => pd
  | some slide =>
    match slide.structuredContent.get? elementIndex with
    | some (SItem.table tableObject) =>
      match (tableObject.rows.get? rowIndex).bind (fun row => row.get? cellIndex) with
      | some _ =>
        let rows' := setCellText tableObject.rows rowIndex cellIndex updatedContent
        if rowIndex = 0 then pd
        else if cellIndex = 0 then
          let originalProjectName :=
            ((((rows'.get? rowIndex).getD []).get? cellIndex).getD default).text
          match objGet pd.activities originalProjectName with
          | some projectInfo =>
            let acts := objSet (objDelete pd.activities originalProjectName)
              originalProjectName projectInfo
            { pd with activities := acts }
          | none => pd
        else if cellIndex = 1 then
          let projectName := ((((rows'.get? rowIndex).getD []).get? 0).getD default).text
          if (objGet pd.activities projectName).isSome then
            let acts := pd.activities.map (fun p =>
              if p.1 == projectName then
                (p.1, { information := updatedContent, alerts := emptyAlerts })
              else p)
            { pd with activities := acts }
          else pd
        else if cellIndex = 2 then
          { pd with upcoming_events := some updatedContent }
        else pd
      | none => pd
    | _ => pd

/-- Whether the edit coordinates resolve to an existing table cell of the
document. -/
def coordResolves (pd : ProjectData) (elementIndex rowIndex cellIndex : Nat) : Bool :=
  match (convertProjectDataToSlides pd).head? with
  | none => false
  | some slide =>
    match slide.structuredContent.get? elementIndex with
    | some (SItem.table tableObject) =>
      ((tableObject.rows.get? rowIndex).bind (fun row => row.get? cellIndex)).isSome
    | _ => false

inductive EditError where
  | outOfRange
deriving DecidableEq, Repr

def exceptDecEq {ε α : Type} [DecidableEq ε] [DecidableEq α] :
    (x y : Except ε α) → Decidable (x = y)
  | .ok a, .ok b =>
    if h : a = b then .isTrue (by rw [h]) else .isFalse (by intro hc; cases hc; exact h rfl)
  | .error a, .error b =>
    if h : a = b then .isTrue (by rw [h]) else .isFalse (by intro hc; cases hc; exact h rfl)
  | .ok _, .error _ => .isFalse (by intro h; cases h)
  | .error _, .ok _ => .isFalse (by intro h; cases h)

instance {ε α : Type} [DecidableEq ε] [DecidableEq α] : DecidableEq (Except ε α) :=
  exceptDecEq

/-- Follows the spec's words (§4.5, §7), for comparison with the source
handler: an edit whose coordinates do not resolve to an existing cell fails
with `OutOfRange` reported to the caller; otherwise the edit is performed. -/
def editCellSpecced (pd : ProjectData) (elementIndex rowIndex cellIndex : Nat)
    (txt : List Char) : Except EditError ProjectData :=
  if coordResolves pd elementIndex rowIndex cellIndex then
    Except.ok (handleTableCellEdit pd elementIndex rowIndex cellIndex txt)
  else Except.error EditError.outOfRange

/-! ### The table extractor of the slide parser (old/PptxViewer.js, parsePptx)

The source scrapes the slide XML with regular expressions.  The embedding
works at the tag level: a `CellXml` carries the `rowSpan`/`gridSpan`
attributes of its `<a:tc>` tag, the texts of its `<a:t>` runs (raw, i.e.
still entity-escaped), and the style facts the per-cell `includes`/`match`
probes read off the cell's markup. -/

structure CellXml where
  rowSpanAttr : Option Nat := none
  gridSpanAttr : Option Nat := none
  texts : List (List Char) := []
  bold : Bool := false
  italic : Bool := false
  underline : Bool := false
  bgColor : Option (List Char) := none
deriving DecidableEq, Repr

structure RowXml where
  cells : List CellXml
deriving DecidableEq, Repr

structure TableXml where
  gridColWidths : List (Option Nat)
  rows : List RowXml
deriving DecidableEq, Repr

/-- Fuel-indexed worker for `replaceAll` (JS global string replace). -/
def replaceAllAux (pat rep : List Char) : Nat → List Char → List Char
  | 0, t => t
  | fuel + 1, t =>
    if pat ≠ [] ∧ pat.isPrefixOf t then
      rep ++ replaceAllAux pat rep fuel (t.drop pat.length)
    else
      match t with
      | [] => []
      | c :: t' => c :: replaceAllAux pat rep fuel t'

/-- JS `text.replace(/pat/g, rep)` for a literal pattern. -/
def replaceAll (pat rep t : List Char) : List Char :=
  replaceAllAux pat rep (t.length + 1) t

/-- The entity unescaping the source applies to every extracted text, as a
fixed sequence of global replaces (`&lt; &gt; &amp; &quot; &apos;`, in that
order). -/
def unescapeEntities (t : List Char) : List Char :=
  replaceAll "&apos;".data [Char.ofNat 39]
    (replaceAll "&quot;".data "\"".data
      (replaceAll "&amp;".data "&".data
        (replaceAll "&gt;".data ">".data
          (replaceAll "&lt;".data "<".data t))))

/-- JS `array.join(" ")`. -/
def joinSpace : List (List Char) → List Char
  | [] => []
  | [s] => s
  | s :: rest => s ++ ' ' :: joinSpace rest

structure PCellStyle where
  bold : Bool := false
  italic : Bool := false
  underline : Bool := false
  bgColor : Option (List Char) := none
deriving DecidableEq, Repr

/-- A cell of a parsed table (PptxViewer lines 300-311). -/
structure PCell where
  text : List Char
  rowSpan : Nat
  colSpan : Nat
  colIndex : Nat
  style : PCellStyle
deriving DecidableEq, Repr

structure PTable where
  rows : List (List PCell)
  hasHeader : Bool
  headerStyle : Option (Bool × Option (List Char))
  colsCount : Nat
  colWidths : Option (List Nat)
deriving DecidableEq, Repr

/-- The per-row effective column count used when no grid is declared
(PptxViewer lines 233-246): declared cell count plus the sum of
`gridSpan - 1` over the row's `gridSpan` attributes (as the source computes
it, over the integers). -/
def rowEffectiveCols (row : RowXml) : Int :=
  (row.cells.length : Int) +
    (row.cells.filterMap (fun c => c.gridSpanAttr)).foldl
      (fun (acc : Int) (n : Nat) => acc + ((n : Int) - 1)) 0

def maxColsInTable (t : TableXml) : Int :=
  t.rows.foldl (fun m r => max m (rowEffectiveCols r)) 0

/-- `totalColsCount` (PptxViewer line 249): the declared grid column count,
or, when zero, the maximum effective column count over the rows
(JS `colsCount || maxColsInTable`). -/
def totalColsCount (t : TableXml) : Nat :=
  if t.gridColWidths.length ≠ 0 then t.gridColWidths.length
  else (maxColsInTable t).toNat

def mkPCell (c : CellXml) (cur : Nat) : PCell where
  text := joinSpace (c.texts.map unescapeEntities)
  rowSpan := c.rowSpanAttr.getD 1
  colSpan := c.gridSpanAttr.getD 1
  colIndex := cur
  style := { bold := c.bold, italic := c.italic, underline := c.underline,
             bgColor := c.bgColor }

/-- The cell loop of a row (PptxViewer lines 270-315): place each declared
cell at the running column cursor and advance the cursor by its `colSpan`.
Returns the placed cells and the final cursor. -/
def placeCells : List CellXml → Nat → List PCell × Nat
  | [], cur => ([], cur)
  | c :: cs, cur =>
    let cell := mkPCell c cur
    let rest := placeCells cs (cur + cell.colSpan)
    (cell :: rest.1, rest.2)

def emptyPCell (cur : Nat) : PCell :=
  { text := [], rowSpan := 1, colSpan := 1, colIndex := cur, style := {} }

/-- The padding loop (PptxViewer lines 317-327), indexed by the number of
missing columns `total - cur`. -/
def padCellsAux : Nat → Nat → List PCell
  | 0, _ => []
  | n + 1, cur => emptyPCell cur :: padCellsAux n (cur + 1)

/-- One extracted row: the placed declared cells, padded with empty span-1
cells while the cursor is below `total`. -/
def extractRow (total : Nat) (row : RowXml) : List PCell :=
  let placed := placeCells row.cells 0
  placed.1 ++ padCellsAux (total - placed.2) placed.2

/-- Header detection on row 0 (PptxViewer lines 251-264). -/
def tableHeaderInfo (t : TableXml) : Bool × Option (Bool × Option (List Char)) :=
  match t.rows.head? with
  | none => (false, none)
  | some row0 =>
    let boldFormat := row0.cells.any (fun c => c.bold)
    let bgFillColor := (row0.cells.filterMap (fun c => c.bgColor)).head?
    if boldFormat || bgFillColor.isSome then (true, some (boldFormat, bgFillColor))
    else (false, none)

/-- One table of `parsePptx`'s table loop (PptxViewer lines 214-338). -/
def extractTable (t : TableXml) : PTable :=
  let total := totalColsCount t
  let hh := tableHeaderInfo t
  let widths := t.gridColWidths.map (fun o => o.getD 0)
  { rows := t.rows.map (extractRow total)
    hasHeader := hh.1
    headerStyle := hh.2
    colsCount := total
    colWidths := if widths.length ≠ 0 then some widths else none }

/-- The full table loop: every `<a:tbl>` element is pushed to the result,
unconditionally. -/
def extractTables (ts : List TableXml) : List PTable :=
  ts.map extractTable

/-- The number of logical grid columns a parsed row covers: the sum of its
cells' column spans. -/
def rowCoverage (row : List PCell) : Nat :=
  (row.map (fun c => c.colSpan)).sum

/-- The total column span a row's declared cells claim. -/
def sumColSpans (cells : List CellXml) : Nat :=
  (cells.map (fun c => c.gridSpanAttr.getD 1)).sum

/-- The column-count formula as claim C9 words it: the maximum, over all
rows, of the declared cell count plus the sum over the cells of
`colSpan - 1`, where a cell's `colSpan` defaults to 1. -/
def specMaxColsInt (t : TableXml) : Int :=
  (t.rows.map (fun r => (r.cells.length : Int) +
    (r.cells.map (fun c => ((c.gridSpanAttr.getD 1 : Nat) : Int) - 1)).sum)).foldl max 0

/-! ### Title resolution of the slide parser (old/PptxViewer.js lines 128-161)

The title regexes read, in document order: the `name` attribute of the slide
container, placeholder tags (`<p:ph .../>` with a `type="title"` and/or an
`idx="0"` attribute), and text runs (`<a:t>...</a:t>`).  A slide is modelled
as its container-name attribute plus the document-ordered sequence of
placeholder tags and text runs. -/

inductive SlideNode where
  | ph (isTitleType isIdx0 : Bool)
  | run (text : List Char)
deriving DecidableEq, Repr

structure SlideXml where
  cSldName : Option (List Char)
  nodes : List SlideNode
  slideId : List Char
deriving DecidableEq, Repr

/-- The first text run of the node sequence (the regex
`/<a:t>(.*?)<\/a:t>/` taking the leftmost match). -/
def firstRunText : List SlideNode → Option (List Char)
  | [] => none
  | SlideNode.run s :: _ => some s
  | SlideNode.ph _ _ :: ns => firstRunText ns

/-- The first text run anywhere after the first placeholder satisfying `p`
(the regex `/<p:ph ... >[\s\S]*?<a:t>(.*?)<\/a:t>/` taking the leftmost
match). -/
def firstRunAfter (p : SlideNode → Bool) : List SlideNode → Option (List Char)
  | [] => none
  | n :: ns => if p n then firstRunText ns else firstRunAfter p ns

def isTitleTypePh : SlideNode → Bool
  | SlideNode.ph t _ => t
  | SlideNode.run _ => false

def isIdx0Ph : SlideNode → Bool
  | SlideNode.ph _ i => i
  | SlideNode.run _ => false

/-- JS `s.trim().length > 0`. -/
def trimNonempty (s : List Char) : Bool :=
  s.any (fun c => !(c = ' ' || c = '\t' || c = '\n' || c = '\r'))

/-- The title resolution of `parsePptx` (PptxViewer lines 128-161), with the
source's truthiness checks: the container-name attribute if non-empty; else
the first run after a `type="title"` placeholder if non-empty; else the first
run after an `idx="0"` placeholder if non-empty; else the first text run of
the slide provided it is non-empty and survives `trim()`; else the literal
fallback built from the slide number. -/
def resolveTitle (sx : SlideXml) : List Char :=
  let title1 : List Char :=
    match sx.cSldName with
    | some n => n
    | none => []
  let title2 : List Char :=
    if title1 = [] then
      match firstRunAfter isTitleTypePh sx.nodes with
      | some t =>
        if t = [] then
          match firstRunAfter isIdx0Ph sx.nodes with
          | some u => u
          | none => []
        else t
      | none =>
        match firstRunAfter isIdx0Ph sx.nodes with
        | some u => u
        | none => []
    else title1
  if title2 = [] then
    match firstRunText sx.nodes with
    | some t => if trimNonempty t then t else "Slide ".data ++ sx.slideId
    | none => "Slide ".data ++ sx.slideId
  else title2

/-- The first non-empty text run of the slide, in document order. -/
def firstNonemptyRun : List SlideNode → Option (List Char)
  | [] => none
  | SlideNode.run s :: ns => if s = [] then firstNonemptyRun ns else some s
  | SlideNode.ph _ _ :: ns => firstNonemptyRun ns

def nonemptyOpt (o : Option (List Char)) : Option (List Char) :=
  match o with
  | some t => if t = [] then none else some t
  | none => none

/-- Title resolution exactly as claim C5 words it: first-match-wins over
(1) the container-name attribute, (2) the text of a `type="title"`
placeholder, (3) the text of the `idx="0"` placeholder, (4) the first
non-empty text run anywhere on the slide, (5) the literal fallback. -/
def specTitleClaimed (sx : SlideXml) : List Char :=
  match nonemptyOpt sx.cSldName with
  | some n => n
  | none =>
    match nonemptyOpt (firstRunAfter isTitleTypePh sx.nodes) with
    | some t => t
    | none =>
      match nonemptyOpt (firstRunAfter isIdx0Ph sx.nodes) with
      | some u => u
      | none =>
        match firstNonemptyRun sx.nodes with
        | some t => t
        | none => "Slide ".data ++ sx.slideId

/-- The claimed cascade with candidate (4) amended to what the source does:
only the first text run of the slide is consulted, and it is used only when
its `trim()` is non-empty. -/
def specTitleAmended (sx : SlideXml) : List Char :=
  match nonemptyOpt sx.cSldName with
  | some n => n
  | none =>
    match nonemptyOpt (firstRunAfter isTitleTypePh sx.nodes) with
    | some t => t
    | none =>
      match nonemptyOpt (firstRunAfter isIdx0Ph sx.nodes) with
      | some u => u
      | none =>
        match (firstRunText sx.nodes).bind
            (fun t => if trimNonempty t then some t else none) with
        | some t => t
        | none => "Slide ".data ++ sx.slideId

/-! ### Concrete instances used by the claim theorems -/

/-- A payload with one project whose information carries one advancement
phrase (the spec's rename scenario). -/
def pdAlpha : ProjectData where
  activities :=
    [("Alpha".data, { information := "ok".data, alerts := ⟨["ok".data], [], []⟩ })]
  upcoming_events := some "E".data
  metadata_title := some "T".data

/-- A payload with two alert-free projects; its generated table has a 3-cell
header row, a 3-cell first data row and a 2-cell second data row. -/
def pdTwo : ProjectData where
  activities :=
    [("P1".data, { information := "i1".data, alerts := ⟨[], [], []⟩ }),
     ("P2".data, { information := "i2".data, alerts := ⟨[], [], []⟩ })]
  upcoming_events := some "ev".data
  metadata_title := some "T".data

/-- A payload whose single project's information decomposes cleanly around its
alert phrases. -/
def pdClean : ProjectData where
  activities :=
    [("P1".data,
      { information := "we did well but risk remains".data,
        alerts := ⟨["did well".data], [], ["risk".data]⟩ })]
  upcoming_events := some "ev".data
  metadata_title := some "T".data

/-- The clean decomposition of `pdClean`'s information text. -/
def dClean : MarkedParts where
  advParts := [("we ".data, "did well".data)]
  smallParts := []
  critParts := [(" but ".data, "risk".data)]
  tailPart := " remains".data

/-- A three-tier decomposition used as the idempotence witness. -/
def dMixed : MarkedParts where
  advParts := [("Progress. ".data, "Great work".data)]
  smallParts := [(" then ".data, "minor delay".data)]
  critParts := [(" and ".data, "Budget overrun".data)]
  tailPart := " end".data

/-- The marked text of the spec's color-classification scenario. -/
def cSixSegs : List Seg :=
  [Seg.plain "Progress on X. ".data, Seg.tagged Tier.green "Great work".data,
   Seg.plain " ".data, Seg.tagged Tier.red "Budget overrun".data]

def cellA : CellXml := { texts := ["a".data] }

def cellB : CellXml := { texts := ["b".data] }

def cSpan2 : CellXml := { gridSpanAttr := some 2, texts := ["m".data] }

/-- A table declaring one grid column but a row with two declared cells. -/
def tOverfull : TableXml where
  gridColWidths := [some 100]
  rows := [⟨[cellA, cellB]⟩]

/-- The spec's padding scenario: a 3-column table whose row declares only two
cells. -/
def tSparse : TableXml where
  gridColWidths := [some 100, some 200, some 300]
  rows := [⟨[cellA, cellB]⟩]

/-- A table element with zero rows. -/
def tEmptyRows : TableXml where
  gridColWidths := []
  rows := []

/-- A grid-less table: one row of a plain cell and a `gridSpan="2"` cell, one
row of a single cell. -/
def tNoGrid : TableXml where
  gridColWidths := []
  rows := [⟨[cellA, cSpan2]⟩, ⟨[cellB]⟩]

/-- A slide whose first text run is empty and whose second is `"Hello"`. -/
def sxEmptyFirstRun : SlideXml where
  cSldName := none
  nodes := [SlideNode.run [], SlideNode.run "Hello".data]
  slideId := "1".data

/-- The spec's title-precedence scenario: no name attribute, no typed-title
placeholder, an `idx="0"` placeholder followed by `"Q3 Review"`. -/
def sxQ3 : SlideXml where
  cSldName := none
  nodes := [SlideNode.ph false true, SlideNode.run "Q3 Review".data]
  slideId := "2".data

/-! ### Theorems -/

theorem findCapture_length_le (closeT : List Char) :
    ∀ (t cap rest : List Char), findCapture closeT t = some (cap, rest) →
      rest.length ≤ t.length := by
  intro t
  induction t with
  | nil =>
    intro cap rest h
    simp only [findCapture] at h
    split at h
    · cases h; simp
    · cases h
  | cons c t ih =>
    intro cap rest h
    simp only [findCapture] at h
    split at h
    · cases h
      simp
    · split at h
      · cases h
      · cases hfc : findCapture closeT t with
        | none => rw [hfc] at h; cases h
        | some p =>
          rw [hfc] at h
          cases h
          have := ih p.1 p.2 (by rw [hfc])
          simp only [List.length_cons]
          omega

/-- The result of `extractTaggedAux` does not depend on the fuel once the fuel
exceeds the length of the scanned text. -/
theorem extractTaggedAux_fuel (openT closeT : List Char) :
    ∀ (f₁ f₂ : Nat) (t : List Char), t.length < f₁ → t.length < f₂ →
      extractTaggedAux openT closeT f₁ t = extractTaggedAux openT closeT f₂ t := by
  intro f₁
  induction f₁ with
  | zero => intro f₂ t h1; omega
  | succ f ih =>
    intro f₂ t h1 h2
    cases f₂ with
    | zero => omega
    | succ f' =>
      simp only [extractTaggedAux]
      split
      · rename_i hcond
        cases hfc : findCapture closeT (t.drop openT.length) with
        | none =>
          cases t with
          | nil => rfl
          | cons c t' =>
            exact ih f' t' (by simp at h1; omega) (by simp at h2; omega)
        | some p =>
          have hrest : p.2.length ≤ (t.drop openT.length).length :=
            findCapture_length_le _ _ _ _ (by rw [hfc])
          have hop : 0 < openT.length := List.length_pos.mpr hcond.1
          have hle : openT.length ≤ t.length := by
            have := hcond.2
            rw [List.isPrefixOf_iff_prefix] at this
            exact this.length_le
          simp only [List.length_drop] at hrest
          simp only [hfc]
          exact congrArg (p.1 :: ·) (ih f' p.2 (by omega) (by omega))
      · cases t with
        | nil => rfl
        | cons c t' =>
          exact ih f' t' (by simp at h1; omega) (by simp at h2; omega)

theorem isPrefixOf_append_self (p r : List Char) : p.isPrefixOf (p ++ r) = true := by
  rw [List.isPrefixOf_iff_prefix]
  exact List.prefix_append p r

theorem isPrefixOf_append_of_length_le :
    ∀ (p u v : List Char), p.length ≤ u.length →
      p.isPrefixOf (u ++ v) = p.isPrefixOf u := by
  intro p
  induction p with
  | nil => intro u v _; simp [List.isPrefixOf]
  | cons d p ih =>
    intro u v hlen
    cases u with
    | nil => simp at hlen
    | cons c u' =>
      simp only [List.cons_append, List.isPrefixOf, List.append_eq]
      rw [ih u' v (by simp at hlen; omega)]

theorem isPrefixOf_of_append_of_le :
    ∀ (y p r : List Char), y.length ≤ p.length → p.isPrefixOf (y ++ r) = true →
      y.isPrefixOf p = true := by
  intro y
  induction y with
  | nil => intro p r _ _; simp [List.isPrefixOf]
  | cons c y' ih =>
    intro p r hlen hpre
    cases p with
    | nil => simp at hlen
    | cons d p' =>
      simp only [List.cons_append, List.isPrefixOf, Bool.and_eq_true, beq_iff_eq] at hpre ⊢
      exact ⟨hpre.1.symm, ih p' r (by simp at hlen; omega) hpre.2⟩

/-- If `p` is neither a prefix of `y` nor an extension of it (`y` not a prefix
of `p`), then `p` cannot match at the start of `y ++ r` for any `r`. -/
theorem not_isPrefixOf_append (p y r : List Char)
    (h1 : p.isPrefixOf y = false) (h2 : y.isPrefixOf p = false) :
    p.isPrefixOf (y ++ r) = false := by
  rcases le_or_lt p.length y.length with hle | hlt
  · rw [isPrefixOf_append_of_length_le p y r hle]; exact h1
  · cases hcon : p.isPrefixOf (y ++ r) with
    | false => rfl
    | true =>
      have := isPrefixOf_of_append_of_le y p r (by omega) hcon
      rw [h2] at this
      cases this

theorem isPrefixOf_head (cs : List Char) (c : Char) (xs : List Char)
    (h : cs.isPrefixOf (c :: xs) = true) (hne : cs ≠ []) : cs.head? = some c := by
  cases cs with
  | nil => exact absurd rfl hne
  | cons d cs' =>
    simp only [List.isPrefixOf, Bool.and_eq_true, beq_iff_eq] at h
    simp [h.1]

/-- Text that does not contain the character opening `p` blocks any scan
for `p`. -/
theorem blocksScan_of_no_open (p u : List Char) (c0 : Char)
    (hp : p.head? = some c0) (hu : ∀ ch ∈ u, ch ≠ c0) : blocksScan p u := by
  intro y hy
  cases y with
  | nil => exact Or.inl rfl
  | cons c y' =>
    right
    have hcy : c ∈ u := by
      have hsuf : (c :: y') <:+ u := (List.mem_tails _ _).mp hy
      exact hsuf.sublist.mem (by simp)
    have hcne : c ≠ c0 := hu c hcy
    cases p with
    | nil => simp at hp
    | cons d p' =>
      simp only [List.head?_cons, Option.some_inj] at hp
      subst hp
      constructor
      · simp only [List.isPrefixOf, Bool.and_eq_false_iff]
        left
        simp [beq_eq_false_iff_ne]
        exact fun h => hcne h.symm
      · simp only [List.isPrefixOf, Bool.and_eq_false_iff]
        left
        simp [beq_eq_false_iff_ne]
        exact hcne

theorem blocksScan_cons (p : List Char) (c : Char) (u : List Char)
    (h : blocksScan p (c :: u)) : blocksScan p u := by
  intro y hy
  exact h y (by rw [List.mem_tails] at hy ⊢; exact hy.trans (List.suffix_cons c u))

/-- Skipping: scanning `u ++ r` when every suffix of `u` blocks a match of the
opening tag is the same as scanning `r`. -/
theorem extractTaggedAux_skip (p cs : List Char) :
    ∀ (u r : List Char) (f : Nat), blocksScan p u → (u ++ r).length < f →
      extractTaggedAux p cs f (u ++ r) =
        extractTaggedAux p cs (r.length + 1) r := by
  intro u
  induction u with
  | nil =>
    intro r f _ hf
    simp only [List.nil_append] at hf ⊢
    exact extractTaggedAux_fuel p cs f (r.length + 1) r hf (by omega)
  | cons c u' ih =>
    intro r f hb hf
    cases f with
    | zero => simp at hf
    | succ f' =>
      have hblock := hb (c :: u') (by rw [List.mem_tails])
      rcases hblock with h | ⟨h1, h2⟩
      · cases h
      · have hnp : p.isPrefixOf ((c :: u') ++ r) = false :=
          not_isPrefixOf_append p (c :: u') r h1 h2
        simp only [extractTaggedAux, List.cons_append]
        rw [if_neg]
        · exact ih r f' (blocksScan_cons p c u' hb) (by simp at hf ⊢; omega)
        · intro hcon
          rw [List.cons_append] at hnp
          rw [hcon.2] at hnp
          cases hnp

/-- The lazy capture starting right after an opening tag: text free of `'<'`
and newlines is captured up to the closing tag (which begins with `'<'`). -/
theorem findCapture_over (cs : List Char) (hcs : cs.head? = some '<') :
    ∀ (c r : List Char), (∀ ch ∈ c, ch ≠ '<') → (∀ ch ∈ c, ch ≠ '\n') →
      findCapture cs (c ++ cs ++ r) = some (c, r) := by
  intro c
  induction c with
  | nil =>
    intro r _ _
    cases cs with
    | nil => simp at hcs
    | cons d cs' =>
      simp only [List.head?_cons, Option.some_inj] at hcs
      subst hcs
      show findCapture ('<' :: cs') (('<' :: cs') ++ r) = some ([], r)
      rw [List.cons_append]
      simp only [findCapture]
      rw [if_pos (show ('<' :: cs').isPrefixOf ('<' :: (cs' ++ r)) = true from
        isPrefixOf_append_self ('<' :: cs') r)]
      exact congrArg (fun x => some (([] : List Char), x)) (List.drop_left ('<' :: cs') r)
  | cons ch c' ih =>
    intro r hlt hnl
    have harg : (ch :: c') ++ cs ++ r = ch :: (c' ++ cs ++ r) := by simp
    rw [harg]
    simp only [findCapture]
    rw [if_neg, if_neg]
    · rw [ih r (fun x hx => hlt x (by simp [hx])) (fun x hx => hnl x (by simp [hx]))]
      rfl
    · exact hnl ch (by simp)
    · intro hcon
      have := isPrefixOf_head cs ch (c' ++ cs ++ r) hcon (by intro h; rw [h] at hcs; cases hcs)
      rw [hcs] at this
      have : '<' = ch := by injection this
      exact hlt ch (by simp) this.symm

/-- Collecting: scanning `p ++ c ++ cs ++ r` for opening tag `p` captures `c`
and resumes at `r`. -/
theorem extractTaggedAux_collect (p cs : List Char) (hp : p ≠ [])
    (hcs : cs.head? = some '<') (c r : List Char)
    (hc : ∀ ch ∈ c, ch ≠ '<') (hn : ∀ ch ∈ c, ch ≠ '\n') (f : Nat)
    (hf : (p ++ c ++ cs ++ r).length < f) :
    extractTaggedAux p cs f (p ++ c ++ cs ++ r) =
      c :: extractTaggedAux p cs (r.length + 1) r := by
  cases f with
  | zero => simp at hf
  | succ f' =>
    have hfr : r.length < f' := by
      simp only [List.length_append] at hf
      have hplen : 0 < p.length := List.length_pos.mpr hp
      omega
    have hdrop : (p ++ c ++ cs ++ r).drop p.length = c ++ cs ++ r := by
      rw [List.append_assoc, List.append_assoc, List.drop_left, ← List.append_assoc]
    have key : extractTaggedAux p cs (f' + 1) (p ++ c ++ cs ++ r) =
        c :: extractTaggedAux p cs f' r := by
      simp only [extractTaggedAux]
      rw [if_pos ⟨hp, by
        rw [List.append_assoc, List.append_assoc]
        exact isPrefixOf_append_self p _⟩]
      rw [hdrop, findCapture_over cs hcs c r hc hn]
    rw [key, extractTaggedAux_fuel p cs f' (r.length + 1) r hfr (by omega)]

theorem openOf_ne_nil (k : Tier) : openOf k ≠ [] := by
  cases k <;> decide

theorem openOf_head (k : Tier) : (openOf k).head? = some '<' := by
  cases k <;> decide

theorem closeSpan_head : closeSpan.head? = some '<' := by decide

theorem blocksScan_openOf (k k' : Tier) (h : k ≠ k') :
    blocksScan (openOf k) (openOf k') := by
  cases k <;> cases k' <;> first
    | exact absurd rfl h
    | decide

theorem blocksScan_closeSpan (k : Tier) : blocksScan (openOf k) closeSpan := by
  cases k <;> decide

/-- Scanning the rendering of a well-formed marked text for the opening tag of
tier `k` yields exactly the phrases of tier `k`, in order. -/
theorem extractTagged_renderSegs (k : Tier) :
    ∀ (L : List Seg), segsWf L →
      extractTagged (openOf k) closeSpan (renderSegs L) = tierContents k L := by
  have main : ∀ (L : List Seg), segsWf L → ∀ f, (renderSegs L).length < f →
      extractTaggedAux (openOf k) closeSpan f (renderSegs L) = tierContents k L := by
    intro L
    induction L with
    | nil =>
      intro _ f hf
      cases f with
      | zero => simp at hf
      | succ f' =>
        simp only [renderSegs, List.map_nil, List.flatten_nil, extractTaggedAux]
        rw [if_neg]
        · rfl
        · intro hcon
          have := hcon.2
          cases k <;> simp_all [openOf, openGreen, openOrange, openRed, List.isPrefixOf]
    | cons sg L' ih =>
      intro hwf f hf
      have hwf' : segsWf L' := fun x hx => hwf x (by simp [hx])
      have hrender : renderSegs (sg :: L') = renderSeg sg ++ renderSegs L' := by
        simp [renderSegs]
      rw [hrender] at hf ⊢
      cases sg with
      | plain s =>
        have hs : ∀ ch ∈ s, ch ≠ '<' := hwf (.plain s) (by simp)
        rw [show renderSeg (Seg.plain s) = s from rfl] at hf ⊢
        rw [extractTaggedAux_skip (openOf k) closeSpan s (renderSegs L') f
          (blocksScan_of_no_open _ s '<' (openOf_head k) hs) hf]
        rw [ih hwf' (renderSegs L').length.succ (by omega)]
        simp [tierContents]
      | tagged k' s =>
        have hsw := hwf (.tagged k' s) (by simp)
        have hs : ∀ ch ∈ s, ch ≠ '<' := hsw.1
        have hn : ∀ ch ∈ s, ch ≠ '\n' := hsw.2
        rw [show renderSeg (Seg.tagged k' s) = openOf k' ++ s ++ closeSpan from rfl] at hf ⊢
        by_cases hk : k' = k
        · subst hk
          rw [show openOf k' ++ s ++ closeSpan ++ renderSegs L' =
            openOf k' ++ s ++ closeSpan ++ renderSegs L' from rfl]
          rw [extractTaggedAux_collect (openOf k') closeSpan (openOf_ne_nil k')
            closeSpan_head s (renderSegs L') hs hn f hf]
          rw [ih hwf' (renderSegs L').length.succ (by omega)]
          simp [tierContents]
        · have hassoc : openOf k' ++ s ++ closeSpan ++ renderSegs L' =
              openOf k' ++ (s ++ (closeSpan ++ renderSegs L')) := by
            simp [List.append_assoc]
          rw [hassoc]
          rw [extractTaggedAux_skip (openOf k) closeSpan (openOf k')
            (s ++ (closeSpan ++ renderSegs L')) f
            (blocksScan_openOf k k' (fun h => hk h.symm))
            (by rw [← hassoc]; exact hf)]
          rw [extractTaggedAux_skip (openOf k) closeSpan s (closeSpan ++ renderSegs L') _
            (blocksScan_of_no_open _ s '<' (openOf_head k) hs) (by omega)]
          rw [extractTaggedAux_skip (openOf k) closeSpan closeSpan (renderSegs L') _
            (blocksScan_closeSpan k) (by omega)]
          rw [ih hwf' (renderSegs L').length.succ (by omega)]
          simp only [tierContents, List.filterMap_cons]
          rw [if_neg hk]
  intro L hwf
  exact main L hwf (renderSegs L).length.succ (by omega)

theorem landingOK_cons (c : Char) (x φ : List Char)
    (h : landingOK (c :: x) φ = true) : landingOK x φ = true := by
  simp only [landingOK, List.all_eq_true, List.mem_range, Bool.not_eq_true',
    decide_eq_true_eq] at h ⊢
  intro j hj
  have := h (j + 1) (by simp; omega)
  simpa using this

theorem replaceFirst_lands (φ rep : List Char) :
    ∀ (x y : List Char), landingOK x φ = true →
      replaceFirst φ rep (x ++ φ ++ y) = x ++ rep ++ y := by
  intro x
  induction x with
  | nil =>
    intro y _
    simp only [List.nil_append]
    cases hφy : φ ++ y with
    | nil =>
      have hφ : φ = [] := by cases φ <;> simp_all
      have hy : y = [] := by cases φ <;> simp_all
      subst hφ hy
      simp [replaceFirst]
    | cons c t =>
      rw [← hφy]
      cases hφy' : φ ++ y with
      | nil => rw [hφy'] at hφy; cases hφy
      | cons c' t' =>
        rw [← hφy']
        have : replaceFirst φ rep (φ ++ y) =
            if φ.isPrefixOf (φ ++ y) then rep ++ (φ ++ y).drop φ.length
            else (φ ++ y).headD c' :: replaceFirst φ rep (φ ++ y).tail := by
          rw [hφy']
          simp [replaceFirst]
        rw [this, if_pos (isPrefixOf_append_self φ y), List.drop_left]
  | cons c x' ih =>
    intro y hland
    have h0 : φ.isPrefixOf ((c :: x') ++ φ) = false := by
      have := hland
      simp only [landingOK, List.all_eq_true, List.mem_range, Bool.not_eq_true',
        decide_eq_true_eq] at this
      have h := this 0 (by simp)
      simpa using h
    have hfull : φ.isPrefixOf ((c :: x') ++ φ ++ y) = false := by
      rw [isPrefixOf_append_of_length_le φ ((c :: x') ++ φ) y
        (by simp only [List.length_append, List.length_cons]; omega)]
      exact h0
    show replaceFirst φ rep (c :: (x' ++ φ ++ y)) = c :: (x' ++ rep ++ y)
    simp only [replaceFirst]
    rw [if_neg (by rw [show c :: (x' ++ φ ++ y) = (c :: x') ++ φ ++ y from rfl, hfull]; simp)]
    exact congrArg (c :: ·) (ih y (landingOK_cons c x' φ hland))

theorem phase_foldl (openT : List Char) :
    ∀ (parts : List (List Char × List Char)) (pre rest : List Char),
      phaseOKB openT pre parts = true →
      List.foldl (fun h φ => replaceFirst φ (openT ++ φ ++ closeSpan) h)
          (pre ++ plainOfParts parts ++ rest) (parts.map Prod.snd)
        = pre ++ markedOfParts openT parts ++ rest := by
  intro parts
  induction parts with
  | nil =>
    intro pre rest _
    simp [plainOfParts, markedOfParts]
  | cons gp parts' ih =>
    intro pre rest hok
    obtain ⟨g, φ⟩ := gp
    simp only [phaseOKB, Bool.and_eq_true] at hok
    simp only [List.map_cons, List.foldl_cons]
    have hplain : pre ++ plainOfParts ((g, φ) :: parts') ++ rest =
        (pre ++ g) ++ φ ++ (plainOfParts parts' ++ rest) := by
      simp [plainOfParts, List.append_assoc]
    rw [hplain, replaceFirst_lands φ (openT ++ φ ++ closeSpan) (pre ++ g)
      (plainOfParts parts' ++ rest) hok.1]
    have hre : (pre ++ g) ++ (openT ++ φ ++ closeSpan) ++ (plainOfParts parts' ++ rest) =
        (pre ++ g ++ openT ++ φ ++ closeSpan) ++ plainOfParts parts' ++ rest := by
      simp [List.append_assoc]
    rw [hre, ih (pre ++ g ++ openT ++ φ ++ closeSpan) rest hok.2]
    simp [markedOfParts, List.append_assoc]

/-- Under the landing conditions, `injectMarkup` rebuilds exactly the marked
rendering of the decomposition. -/
theorem injectMarkup_marked (D : MarkedParts) (h : D.injectOK = true) :
    injectMarkup D.plainText D.alerts = D.markedText := by
  simp only [MarkedParts.injectOK, Bool.and_eq_true] at h
  obtain ⟨⟨h1, h2⟩, h3⟩ := h
  unfold injectMarkup MarkedParts.plainText MarkedParts.alerts MarkedParts.markedText
  have step1 := phase_foldl openGreen D.advParts []
    (plainOfParts D.smallParts ++ plainOfParts D.critParts ++ D.tailPart) h1
  simp only [List.nil_append] at step1
  rw [show plainOfParts D.advParts ++ plainOfParts D.smallParts ++
      plainOfParts D.critParts ++ D.tailPart =
    plainOfParts D.advParts ++ (plainOfParts D.smallParts ++
      plainOfParts D.critParts ++ D.tailPart) from by simp [List.append_assoc]]
  rw [step1]
  have step2 := phase_foldl openOrange D.smallParts (markedOfParts openGreen D.advParts)
    (plainOfParts D.critParts ++ D.tailPart) h2
  rw [show markedOfParts openGreen D.advParts ++ (plainOfParts D.smallParts ++
      plainOfParts D.critParts ++ D.tailPart) =
    markedOfParts openGreen D.advParts ++ plainOfParts D.smallParts ++
      (plainOfParts D.critParts ++ D.tailPart) from by simp [List.append_assoc]]
  rw [step2]
  have step3 := phase_foldl openRed D.critParts
    (markedOfParts openGreen D.advParts ++ markedOfParts openOrange D.smallParts)
    D.tailPart h3
  rw [show markedOfParts openGreen D.advParts ++ markedOfParts openOrange D.smallParts ++
      (plainOfParts D.critParts ++ D.tailPart) =
    (markedOfParts openGreen D.advParts ++ markedOfParts openOrange D.smallParts) ++
      plainOfParts D.critParts ++ D.tailPart from by simp [List.append_assoc]]
  rw [step3]

theorem renderSegs_append (L1 L2 : List Seg) :
    renderSegs (L1 ++ L2) = renderSegs L1 ++ renderSegs L2 := by
  simp [renderSegs]

theorem renderSegs_partsSegs (k : Tier) :
    ∀ parts, renderSegs (partsSegs k parts) = markedOfParts (openOf k) parts := by
  intro parts
  induction parts with
  | nil => simp [partsSegs, renderSegs, markedOfParts]
  | cons p ps ih =>
    obtain ⟨g, φ⟩ := p
    simp only [partsSegs, List.map_cons, List.flatten_cons, markedOfParts] at ih ⊢
    simp only [renderSegs, List.map_append, List.map_cons, List.map_nil,
      List.flatten_append, List.flatten_cons, List.flatten_nil, renderSeg] at ih ⊢
    rw [ih]
    simp [List.append_assoc]

theorem markedText_segs (D : MarkedParts) : D.markedText = renderSegs D.segs := by
  unfold MarkedParts.markedText MarkedParts.segs
  rw [renderSegs_append, renderSegs_append, renderSegs_append]
  rw [renderSegs_partsSegs, renderSegs_partsSegs, renderSegs_partsSegs]
  simp [renderSegs, renderSeg, openOf]

theorem tierContents_append (k : Tier) (L1 L2 : List Seg) :
    tierContents k (L1 ++ L2) = tierContents k L1 ++ tierContents k L2 := by
  simp [tierContents]

theorem tierContents_partsSegs (k k' : Tier) :
    ∀ parts, tierContents k (partsSegs k' parts) =
      if k' = k then parts.map Prod.snd else [] := by
  intro parts
  induction parts with
  | nil => simp [partsSegs, tierContents]
  | cons p ps ih =>
    obtain ⟨g, φ⟩ := p
    by_cases hk : k' = k
    · subst hk
      simp_all [partsSegs, tierContents]
    · simp_all [partsSegs, tierContents]

theorem alerts_segs (D : MarkedParts) :
    D.alerts = ⟨tierContents Tier.green D.segs, tierContents Tier.orange D.segs,
      tierContents Tier.red D.segs⟩ := by
  unfold MarkedParts.alerts MarkedParts.segs
  simp only [tierContents_append, tierContents_partsSegs]
  simp [tierContents]

theorem extractAlerts_renderSegs (L : List Seg) (h : segsWf L) :
    extractAlertsFromHtml (renderSegs L) =
      ⟨tierContents Tier.green L, tierContents Tier.orange L,
        tierContents Tier.red L⟩ := by
  unfold extractAlertsFromHtml
  rw [show openGreen = openOf Tier.green from rfl,
    show openOrange = openOf Tier.orange from rfl,
    show openRed = openOf Tier.red from rfl]
  rw [extractTagged_renderSegs Tier.green L h, extractTagged_renderSegs Tier.orange L h,
    extractTagged_renderSegs Tier.red L h]

/-- Classifying the injected marking of a clean decomposition recovers its
alert lists. -/
theorem extractAlerts_injectMarkup (D : MarkedParts) (hwf : segsWf D.segs)
    (hok : D.injectOK = true) :
    extractAlertsFromHtml (injectMarkup D.plainText D.alerts) = D.alerts := by
  rw [injectMarkup_marked D hok, markedText_segs D, extractAlerts_renderSegs D.segs hwf,
    alerts_segs D]

/-- C2 (amended): for a plain text that decomposes into tier-ordered gaps and
phrases — segments free of tags, newlines and `$`, each injection landing on
its designated occurrence — classifying the result of injecting the
AlertSet's markup reproduces the AlertSet exactly. -/
theorem classifier_idempotence_clean (D : MarkedParts) (h : D.clean) :
    extractAlertsFromHtml (injectMarkup D.plainText D.alerts) = D.alerts :=
  extractAlerts_injectMarkup D h.1 h.2.2

theorem classifier_idempotence_clean_witness :
    dMixed.clean ∧
      dMixed.plainText =
        "Progress. Great work then minor delay and Budget overrun end".data ∧
      dMixed.alerts =
        ⟨["Great work".data], ["minor delay".data], ["Budget overrun".data]⟩ ∧
      extractAlertsFromHtml (injectMarkup dMixed.plainText dMixed.alerts) =
        dMixed.alerts :=
  ⟨by decide, by decide, by decide, classifier_idempotence_clean dMixed (by decide)⟩

/-- C2 counterexample: `T = "a color"` contains both phrases of
`A = {advancements := ["a"], small_alerts := ["color"], critical_alerts := []}`
verbatim, yet the orange injection pass lands inside the already-injected
green tag (`style="color: green;"`), so classifying the injected text does not
reproduce `A`. -/
theorem classifier_idempotence_counterexample :
    containsSub "a".data "a color".data = true ∧
    containsSub "color".data "a color".data = true ∧
    extractAlertsFromHtml
        (injectMarkup "a color".data ⟨["a".data], ["color".data], []⟩) ≠
      ⟨["a".data], ["color".data], []⟩ := by
  decide

/-- C6: on a well-formed marked text, classification assigns each tagged span
to exactly one tier, determined by its exact opening-tag string: green spans
to `advancements`, orange spans to `small_alerts`, red bold spans to
`critical_alerts`. -/
theorem classification_by_exact_tags (L : List Seg) (h : segsWf L) :
    extractAlertsFromHtml (renderSegs L) =
      { advancements := tierContents Tier.green L,
        small_alerts := tierContents Tier.orange L,
        critical_alerts := tierContents Tier.red L } :=
  extractAlerts_renderSegs L h

theorem classification_by_exact_tags_witness :
    segsWf cSixSegs ∧
      extractAlertsFromHtml (renderSegs cSixSegs) =
        { advancements := ["Great work".data],
          small_alerts := ([] : List (List Char)),
          critical_alerts := ["Budget overrun".data] } :=
  ⟨by decide, (classification_by_exact_tags cSixSegs (by decide)).trans (by decide)⟩

/-- C1: the rename handler reads the "original" project name from the cell it
has already overwritten, so renaming the only project `"Alpha"` to `"Beta"`
leaves the payload unchanged: no entry is created under `"Beta"` and the
entry under `"Alpha"` (with its information and alerts) stays where it was,
contradicting both the handler's own comments and the spec. -/
theorem rename_edit_loses_entry :
    handleTableCellEdit pdAlpha 1 1 0 "Beta".data = pdAlpha ∧
    objGet (handleTableCellEdit pdAlpha 1 1 0 "Beta".data).activities "Beta".data =
      none ∧
    objGet (handleTableCellEdit pdAlpha 1 1 0 "Beta".data).activities "Alpha".data =
      some { information := "ok".data, alerts := ⟨["ok".data], [], []⟩ } := by
  decide

/-- C3 (amended): an edit whose coordinates do not resolve to an existing
table cell leaves the document — in particular its `project_data` payload —
unchanged, but no `OutOfRange` failure is produced: the handler falls through
its existence guard and returns normally. -/
theorem out_of_range_edit_silently_ignored (pd : ProjectData)
    (e r c : Nat) (txt : List Char) (h : coordResolves pd e r c = false) :
    handleTableCellEdit pd e r c txt = pd := by
  cases hs : (convertProjectDataToSlides pd).head? with
  | none => simp [handleTableCellEdit, hs]
  | some slide =>
    cases hi : slide.structuredContent.get? e with
    | none =>
      simp only [List.get?_eq_getElem?] at hi
      simp [handleTableCellEdit, hs, hi]
    | some item =>
      simp only [List.get?_eq_getElem?] at hi
      cases item with
      | text s b => simp [handleTableCellEdit, hs, hi]
      | table tbl =>
        cases hb : (tbl.rows.get? r).bind (fun row => row.get? c) with
        | some cell =>
          exfalso
          simp only [List.get?_eq_getElem?] at hb
          simp only [coordResolves, hs, List.get?_eq_getElem?, hi] at h
          rw [hb] at h
          simp at h
        | none =>
          simp only [List.get?_eq_getElem?] at hb
          simp [handleTableCellEdit, hs, hi, hb]

theorem out_of_range_edit_silently_ignored_witness :
    coordResolves pdTwo 1 99 99 = false ∧
      handleTableCellEdit pdTwo 1 99 99 "x".data = pdTwo :=
  ⟨by decide, out_of_range_edit_silently_ignored pdTwo 1 99 99 "x".data (by decide)⟩

/-- C3 counterexample: on a document whose only table has three rows, the
out-of-range edit `(rowIndex, cellIndex) = (99, 99)` leaves the document
unchanged, but the source handler produces no failure — unlike the
`OutOfRange` error the claim requires — so it disagrees with the
spec-worded `editCellSpecced`. -/
theorem out_of_range_edit_not_reported :
    handleTableCellEdit pdTwo 1 99 99 "x".data = pdTwo ∧
    editCellSpecced pdTwo 1 99 99 "x".data = Except.error EditError.outOfRange ∧
    Except.ok (handleTableCellEdit pdTwo 1 99 99 "x".data) ≠
      editCellSpecced pdTwo 1 99 99 "x".data := by
  decide

/-- C8 counterexample: a `<a:tbl>` element containing zero rows is pushed to
the extractor's output as a table with an empty row sequence — it is not
omitted. -/
theorem zero_row_table_not_omitted :
    (extractTables [tEmptyRows]).map PTable.rows = [[]] ∧
    ¬ ∀ tb ∈ extractTables [tEmptyRows], tb.rows ≠ [] := by
  decide

/-- C8 (amended): the extractor emits exactly one output table per source
table element, preserving the row count — so zero-row source tables appear in
the output as tables with empty rows rather than being omitted. -/
theorem tables_preserved_one_to_one (ts : List TableXml) :
    (extractTables ts).map (fun tb => tb.rows.length) =
      ts.map (fun t => t.rows.length) := by
  induction ts with
  | nil => rfl
  | cons t ts ih =>
    have hcons : extractTables (t :: ts) = extractTable t :: extractTables ts := rfl
    rw [hcons, List.map_cons, List.map_cons, ih]
    congr 1
    show (t.rows.map (extractRow (totalColsCount t))).length = t.rows.length
    rw [List.length_map]

theorem foldl_add_int (l : List Nat) :
    ∀ acc : Int, l.foldl (fun (a : Int) (n : Nat) => a + ((n : Int) - 1)) acc =
      acc + (l.map (fun (n : Nat) => (n : Int) - 1)).sum := by
  induction l with
  | nil => intro acc; simp
  | cons n l ih =>
    intro acc
    simp only [List.foldl_cons, List.map_cons, List.sum_cons]
    rw [ih]
    ring

theorem sum_filterMap_gridSpan :
    ∀ cells : List CellXml,
      ((cells.filterMap (fun c => c.gridSpanAttr)).map (fun (n : Nat) => (n : Int) - 1)).sum =
        (cells.map (fun c => ((c.gridSpanAttr.getD 1 : Nat) : Int) - 1)).sum := by
  intro cells
  induction cells with
  | nil => simp
  | cons c cs ih =>
    cases hattr : c.gridSpanAttr with
    | none =>
      simp only [List.filterMap_cons, hattr, List.map_cons, List.sum_cons, ih]
      simp
    | some n =>
      simp only [List.filterMap_cons, hattr, List.map_cons, List.sum_cons, ih]
      simp

theorem rowEff_formula (r : RowXml) :
    rowEffectiveCols r = (r.cells.length : Int) +
      (r.cells.map (fun c => ((c.gridSpanAttr.getD 1 : Nat) : Int) - 1)).sum := by
  unfold rowEffectiveCols
  rw [foldl_add_int, sum_filterMap_gridSpan]
  ring

theorem maxCols_eq_spec (t : TableXml) : maxColsInTable t = specMaxColsInt t := by
  unfold maxColsInTable specMaxColsInt
  rw [List.foldl_map]
  exact List.foldl_ext _ _ 0 (fun acc r _ => by rw [rowEff_formula])

/-- C9: the extractor's column count is the number of declared grid columns
when any are declared, and otherwise the maximum over the rows of the
declared cell count plus the sum of `colSpan - 1` over the cells. -/
theorem colsCount_formula (t : TableXml) :
    (extractTable t).colsCount =
      if t.gridColWidths = [] then (specMaxColsInt t).toNat
      else t.gridColWidths.length := by
  show totalColsCount t = _
  unfold totalColsCount
  rw [maxCols_eq_spec]
  cases hg : t.gridColWidths with
  | nil => simp
  | cons w ws => simp

/-- C5 counterexample: on a slide with no name attribute, no placeholders,
an empty first text run and a non-empty second run, the claimed precedence
(candidate 4 = "first non-empty run anywhere") yields `"Hello"`, but the
source only inspects the very first run, finds it falsy, and falls through to
the `"Slide {n}"` literal. -/
theorem title_first_run_counterexample :
    resolveTitle sxEmptyFirstRun = "Slide 1".data ∧
    specTitleClaimed sxEmptyFirstRun = "Hello".data ∧
    resolveTitle sxEmptyFirstRun ≠ specTitleClaimed sxEmptyFirstRun := by
  decide

/-- C5 (amended): the source's title resolution is first-match-wins over the
claimed candidates (1) container-name attribute, (2) text of a typed-title
placeholder, (3) text of the `idx="0"` placeholder, (5) fallback literal —
with candidate (4) amended: only the *first* text run of the slide is
consulted, and it is used only when it is non-empty after trimming; later
runs are never examined. -/
theorem title_resolution_amended (sx : SlideXml) :
    resolveTitle sx = specTitleAmended sx := by
  unfold resolveTitle specTitleAmended nonemptyOpt
  cases hname : sx.cSldName with
  | some n =>
    by_cases hn : n = [] <;>
      cases h2 : firstRunAfter isTitleTypePh sx.nodes <;>
      cases h3 : firstRunAfter isIdx0Ph sx.nodes <;>
      cases h4 : firstRunText sx.nodes <;>
      simp_all <;>
      split_ifs <;>
      simp_all
  | none =>
    cases h2 : firstRunAfter isTitleTypePh sx.nodes <;>
      cases h3 : firstRunAfter isIdx0Ph sx.nodes <;>
      cases h4 : firstRunText sx.nodes <;>
      simp_all <;>
      split_ifs <;>
      simp_all

theorem placeCells_spec (cells : List CellXml) :
    ∀ cur, (placeCells cells cur).2 = cur + sumColSpans cells ∧
      ((placeCells cells cur).1.map (fun c => c.colSpan)).sum = sumColSpans cells := by
  induction cells with
  | nil => intro cur; simp [placeCells, sumColSpans]
  | cons c cs ih =>
    intro cur
    simp only [placeCells, List.map_cons, List.sum_cons]
    constructor
    · rw [(ih _).1]
      simp [sumColSpans, mkPCell]
      omega
    · rw [(ih _).2]
      simp [sumColSpans, mkPCell]

theorem padCellsAux_sum (n : Nat) :
    ∀ cur, ((padCellsAux n cur).map (fun c => c.colSpan)).sum = n := by
  induction n with
  | zero => intro cur; simp [padCellsAux]
  | succ m ih => intro cur; simp [padCellsAux, emptyPCell, ih]; omega

/-- A parsed row covers `max total S` logical columns, where `S` is the total
span its declared cells claim: the padding loop tops the cursor up to
`total`, and never removes columns. -/
theorem rowCoverage_extractRow (total : Nat) (r : RowXml) :
    rowCoverage (extractRow total r) = max total (sumColSpans r.cells) := by
  unfold rowCoverage extractRow
  rw [List.map_append, List.sum_append, (placeCells_spec r.cells 0).2, padCellsAux_sum,
    (placeCells_spec r.cells 0).1]
  omega

theorem rowEff_eq_sumColSpans (r : RowXml) :
    rowEffectiveCols r = (sumColSpans r.cells : Int) := by
  rw [rowEff_formula]
  unfold sumColSpans
  induction r.cells with
  | nil => simp
  | cons c cs ih =>
    simp only [List.map_cons, List.sum_cons, List.length_cons] at ih ⊢
    push_cast at ih ⊢
    omega

theorem foldl_max_le (g : RowXml → Int) :
    ∀ (l : List RowXml) (acc : Int),
      acc ≤ l.foldl (fun m x => max m (g x)) acc ∧
        ∀ r ∈ l, g r ≤ l.foldl (fun m x => max m (g x)) acc := by
  intro l
  induction l with
  | nil => intro acc; simp
  | cons x l ih =>
    intro acc
    simp only [List.foldl_cons, List.mem_cons]
    constructor
    · exact le_trans (le_max_left _ _) (ih (max acc (g x))).1
    · intro r hr
      rcases hr with h | h
      · subst h
        exact le_trans (le_max_right _ _) (ih (max acc (g r))).1
      · exact (ih (max acc (g x))).2 r h

/-- C4 (amended): every parsed row covers at least `colsCount` logical
columns; when the source declares no grid columns the coverage is exactly
`colsCount` for every row (the padding tops sparse rows up, and no row can
exceed the maximum the column count was computed from); and the spec's
scenario — a 3-column table whose row declares only 2 cells — yields exactly
3 cells, the third being an empty span-1 cell.  (A row whose declared cells
cover more than a declared grid's column count keeps its excess columns, so
"exactly `colsCount`" does not hold unconditionally.) -/
theorem row_span_accounting (t : TableXml) :
    (∀ row ∈ (extractTable t).rows, (extractTable t).colsCount ≤ rowCoverage row) ∧
    (t.gridColWidths = [] →
      ∀ row ∈ (extractTable t).rows, rowCoverage row = (extractTable t).colsCount) ∧
    (extractTable tSparse).rows =
      [[{ text := "a".data, rowSpan := 1, colSpan := 1, colIndex := 0, style := {} },
        { text := "b".data, rowSpan := 1, colSpan := 1, colIndex := 1, style := {} },
        { text := [], rowSpan := 1, colSpan := 1, colIndex := 2, style := {} }]] := by
  refine ⟨?_, ?_, by decide⟩
  · intro row hrow
    have hrows : (extractTable t).rows = t.rows.map (extractRow (totalColsCount t)) := rfl
    rw [hrows] at hrow
    obtain ⟨src, _, rfl⟩ := List.mem_map.mp hrow
    show totalColsCount t ≤ rowCoverage (extractRow (totalColsCount t) src)
    rw [rowCoverage_extractRow]
    omega
  · intro hg row hrow
    have hrows : (extractTable t).rows = t.rows.map (extractRow (totalColsCount t)) := rfl
    rw [hrows] at hrow
    obtain ⟨src, hsrc, rfl⟩ := List.mem_map.mp hrow
    show rowCoverage (extractRow (totalColsCount t) src) = totalColsCount t
    rw [rowCoverage_extractRow]
    have hcount : totalColsCount t = (maxColsInTable t).toNat := by
      unfold totalColsCount
      rw [hg]
      simp
    have hle : rowEffectiveCols src ≤ maxColsInTable t :=
      (foldl_max_le rowEffectiveCols t.rows 0).2 src hsrc
    have hnn : (0 : Int) ≤ maxColsInTable t :=
      (foldl_max_le rowEffectiveCols t.rows 0).1
    rw [rowEff_eq_sumColSpans] at hle
    omega

theorem row_span_accounting_witness :
    (extractTable tOverfull).colsCount ≤
        rowCoverage ((extractTable tOverfull).rows.headD []) ∧
      rowCoverage ((extractTable tNoGrid).rows.headD []) =
        (extractTable tNoGrid).colsCount :=
  ⟨(row_span_accounting tOverfull).1 _ (by decide),
   (row_span_accounting tNoGrid).2.1 rfl _ (by decide)⟩

/-- C4 counterexample: with one declared grid column but a row declaring two
span-1 cells, the extractor reports `colsCount = 1` while the row covers 2
logical columns — the row is not truncated to `colsCount`, refuting "every
row covers exactly `columnCount`". -/
theorem row_span_accounting_counterexample :
    (extractTable tOverfull).colsCount = 1 ∧
    (extractTable tOverfull).rows.map rowCoverage = [2] ∧
    ¬ ∀ row ∈ (extractTable tOverfull).rows,
        rowCoverage row = (extractTable tOverfull).colsCount := by
  decide

theorem mapIdx_length (f : Nat → α → β) :
    ∀ (l : List α) (i : Nat), (mapIdx f i l).length = l.length := by
  intro l
  induction l with
  | nil => intro i; rfl
  | cons a as ih => intro i; simp [mapIdx, ih]

theorem mapIdx_get? (f : Nat → α → β) :
    ∀ (l : List α) (i j : Nat),
      (mapIdx f i l).get? j = (l.get? j).map (f (i + j)) := by
  intro l
  induction l with
  | nil => intro i j; simp [mapIdx]
  | cons a as ih =>
    intro i j
    cases j with
    | zero => simp [mapIdx]
    | succ j' =>
      show (mapIdx f (i + 1) as).get? j' = (as.get? j').map (f (i + (j' + 1)))
      rw [ih (i + 1) j']
      have harith : i + 1 + j' = i + (j' + 1) := by omega
      rw [harith]

/-- C10: for a payload with at least one project, the generated slide holds
exactly one table; its header row is the three bold header cells; each
project yields one data row whose name and information cells are span-1
anchors; the upcoming-events cell appears only in the first data row with a
row span equal to the number of projects; and every later data row has
exactly 2 cells. -/
theorem generated_table_shape (pd : ProjectData) (h : pd.activities ≠ []) :
    (convertProjectDataToSlides pd).map SlideModel.tables = [[mainTable pd]] ∧
    (mainTable pd).rows.length = pd.activities.length + 1 ∧
    (mainTable pd).rows.get? 0 = some headerRowCells ∧
    (headerRowCells.length = 3 ∧ ∀ cell ∈ headerRowCells, cell.style.bold = true) ∧
    (∀ i e, pd.activities.get? i = some e →
      (mainTable pd).rows.get? (i + 1) = some (projectRow pd i e) ∧
      ((projectRow pd i e).get? 0).map (fun cl => (cl.text, cl.rowSpan, cl.colSpan)) =
        some (e.1, 1, 1) ∧
      ((projectRow pd i e).get? 1).map (fun cl => (cl.rowSpan, cl.colSpan)) =
        some (1, 1) ∧
      (if i = 0 then
          (projectRow pd i e).length = 3 ∧
          ((projectRow pd i e).get? 2).map (fun cl => (cl.rowSpan, cl.colSpan)) =
            some (pd.activities.length, 1)
        else (projectRow pd i e).length = 2)) := by
  have hie : pd.activities.isEmpty = false := by
    cases hacts : pd.activities with
    | nil => exact absurd hacts h
    | cons a as => rfl
  refine ⟨?_, ?_, rfl, ⟨rfl, by decide⟩, ?_⟩
  · simp [convertProjectDataToSlides, convertSlide, hie]
  · show (headerRowCells :: mapIdx (projectRow pd) 0 pd.activities).length = _
    simp [mapIdx_length]
  · intro i e he
    refine ⟨?_, ?_, ?_, ?_⟩
    · show (headerRowCells :: mapIdx (projectRow pd) 0 pd.activities).get? (i + 1) =
        some (projectRow pd i e)
      rw [List.get?_cons_succ, mapIdx_get? (projectRow pd) pd.activities 0 i, he]
      simp
    · rfl
    · rfl
    · by_cases hi : i = 0
      · subst hi
        simp [projectRow]
      · simp [projectRow, hi]

theorem generated_table_shape_witness :
    pdTwo.activities ≠ [] ∧
      (convertProjectDataToSlides pdTwo).map SlideModel.tables = [[mainTable pdTwo]] ∧
      (mainTable pdTwo).rows.length = 3 ∧
      (projectRow pdTwo 0 ("P1".data, { information := "i1".data, alerts := ⟨[], [], []⟩ })).length = 3 ∧
      (projectRow pdTwo 1 ("P2".data, { information := "i2".data, alerts := ⟨[], [], []⟩ })).length = 2 := by
  have h := generated_table_shape pdTwo (by decide)
  refine ⟨by decide, h.1, h.2.1.trans (by decide), ?_, ?_⟩
  · exact ((h.2.2.2.2 0 ("P1".data, { information := "i1".data, alerts := ⟨[], [], []⟩ })
      (by decide)).2.2.2).1
  · have h2 := (h.2.2.2.2 1 ("P2".data, { information := "i2".data, alerts := ⟨[], [], []⟩ })
      (by decide)).2.2.2
    simpa using h2

theorem objSet_not_mem (m : List (List Char × ProjInfo)) (k : List Char) (v : ProjInfo)
    (h : m.any (fun p => p.1 == k) = false) :
    objSet m k v = m ++ [(k, v)] := by
  simp only [objSet, h]
  rfl

theorem processDataRow_projectRow (pd : ProjectData) (i : Nat)
    (e : List Char × ProjInfo) (acc : List (List Char × ProjInfo)) (hne : e.1 ≠ []) :
    processDataRow acc (projectRow pd i e) =
      objSet acc e.1
        { information := injectMarkup e.2.information e.2.alerts,
          alerts := extractAlertsFromHtml (injectMarkup e.2.information e.2.alerts) } := by
  by_cases hi : i = 0 <;>
    simp [processDataRow, projectRow, hi, hne]

theorem foldl_processDataRow (pd : ProjectData) :
    ∀ (acts : List (List Char × ProjInfo)) (i : Nat) (acc : List (List Char × ProjInfo)),
      (∀ e ∈ acts, e.1 ≠ []) →
      (acts.map Prod.fst).Nodup →
      (∀ e ∈ acts, acc.any (fun p => p.1 == e.1) = false) →
      (mapIdx (projectRow pd) i acts).foldl processDataRow acc =
        acc ++ acts.map (fun e => (e.1,
          { information := injectMarkup e.2.information e.2.alerts,
            alerts := extractAlertsFromHtml (injectMarkup e.2.information e.2.alerts) })) := by
  intro acts
  induction acts with
  | nil => intro i acc _ _ _; simp [mapIdx]
  | cons a as ih =>
    intro i acc hne hnodup hdisj
    simp only [mapIdx, List.foldl_cons]
    rw [processDataRow_projectRow pd i a acc (hne a (by simp))]
    rw [objSet_not_mem _ _ _ (hdisj a (by simp))]
    rw [ih (i + 1) _ (fun e he => hne e (by simp [he]))
      (by simp only [List.map_cons, List.nodup_cons] at hnodup; exact hnodup.2)
      ?_]
    · simp
    · intro e he
      rw [List.any_append]
      simp only [Bool.or_eq_false_iff]
      refine ⟨hdisj e (by simp [he]), ?_⟩
      simp only [List.any_cons, List.any_nil, Bool.or_false]
      have hfst : a.1 ≠ e.1 := by
        simp only [List.map_cons, List.nodup_cons] at hnodup
        intro hc
        exact hnodup.1 (hc ▸ List.mem_map_of_mem Prod.fst he)
      simp [hfst]

/-- `updateProjectData` on a one-slide list whose slide holds one table with a
first data row of at least three cells. -/
theorem updateProjectData_single (sl : SlideModel) (orig : ProjectData)
    (tbl : ConvTable) (htab : sl.tables = [tbl]) (hrows : 1 < tbl.rows.length)
    (row1 : List TCell) (hrow1 : tbl.rows.get? 1 = some row1) (hlen : 3 ≤ row1.length) :
    updateProjectData [sl] orig =
      { activities := (tbl.rows.drop 1).foldl processDataRow [],
        upcoming_events := some (((row1.get? 2).getD default).text),
        metadata_title := orig.metadata_title } := by
  show (let upcoming : Option (List Char) :=
      match sl.tables.head? with
      | some table =>
        if 1 < table.rows.length then
          match table.rows.get? 1 with
          | some firstDataRow =>
            if 3 ≤ firstDataRow.length then
              some (((firstDataRow.get? 2).getD default).text)
            else none
          | none => none
        else none
      | none => none
    let acts : List (List Char × ProjInfo) :=
      match sl.tables.head? with
      | some table => (table.rows.drop 1).foldl processDataRow []
      | none => []
    ({ activities := acts, upcoming_events := upcoming,
       metadata_title := orig.metadata_title } : ProjectData)) = _
  rw [htab]
  simp only [List.head?_cons, hrow1]
  rw [if_pos hrows, if_pos hlen]

/-- C7 (amended): for a payload with at least one project, non-empty and
pairwise-distinct project names, and information texts that decompose cleanly
around their alert phrases, the table↔payload round trip recovers every
project key in order, every alert list, the upcoming-events string (with an
absent value coalesced to `""`), and the metadata title; the information
string, however, comes back with the alert markup injected, not as the
original plain text. -/
theorem roundtrip_structure (pd : ProjectData)
    (hne : pd.activities ≠ [])
    (hnames : ∀ e ∈ pd.activities, e.1 ≠ [])
    (hnodup : (pd.activities.map Prod.fst).Nodup)
    (hclean : ∀ e ∈ pd.activities, ∃ D : MarkedParts,
      D.plainText = e.2.information ∧ D.alerts = e.2.alerts ∧
        segsWf D.segs ∧ D.injectOK = true) :
    (roundTripProjectData pd).activities =
        pd.activities.map (fun e => (e.1,
          { information := injectMarkup e.2.information e.2.alerts,
            alerts := e.2.alerts })) ∧
      (roundTripProjectData pd).upcoming_events =
        some (jsOrElse pd.upcoming_events []) ∧
      (roundTripProjectData pd).metadata_title = pd.metadata_title := by
  obtain ⟨a, as, hacts⟩ : ∃ a as, pd.activities = a :: as := by
    cases hacts : pd.activities with
    | nil => exact absurd hacts hne
    | cons a as => exact ⟨a, as, rfl⟩
  have hie : pd.activities.isEmpty = false := by rw [hacts]; rfl
  have htab : (convertSlide pd).tables = [mainTable pd] := by
    simp [convertSlide, hie]
  have hrowsEq : (mainTable pd).rows =
      headerRowCells :: mapIdx (projectRow pd) 0 pd.activities := rfl
  have hrows : 1 < (mainTable pd).rows.length := by
    rw [hrowsEq, hacts]
    show 1 < (headerRowCells :: mapIdx (projectRow pd) 0 (a :: as)).length
    simp [mapIdx]
  have hrow1 : (mainTable pd).rows.get? 1 = some (projectRow pd 0 a) := by
    rw [hrowsEq, hacts]
    rfl
  have hlen : 3 ≤ (projectRow pd 0 a).length := by
    simp [projectRow]
  have hupd : roundTripProjectData pd =
      { activities := ((mainTable pd).rows.drop 1).foldl processDataRow [],
        upcoming_events := some ((((projectRow pd 0 a).get? 2).getD default).text),
        metadata_title := pd.metadata_title } := by
    show updateProjectData [convertSlide pd] pd = _
    rw [updateProjectData_single (convertSlide pd) pd (mainTable pd) htab hrows
      (projectRow pd 0 a) hrow1 hlen]
  have hdrop : (mainTable pd).rows.drop 1 = mapIdx (projectRow pd) 0 pd.activities := rfl
  have hfold := foldl_processDataRow pd pd.activities 0 [] hnames hnodup
    (fun e _ => rfl)
  have hcell : (((projectRow pd 0 a).get? 2).getD default).text =
      jsOrElse pd.upcoming_events [] := by
    simp [projectRow]
  refine ⟨?_, ?_, ?_⟩
  · rw [hupd]
    show ((mainTable pd).rows.drop 1).foldl processDataRow [] = _
    rw [hdrop, hfold]
    simp only [List.nil_append]
    apply List.map_congr_left
    intro e he
    obtain ⟨D, hD1, hD2, hDwf, hDok⟩ := hclean e he
    rw [← hD1, ← hD2, extractAlerts_injectMarkup D hDwf hDok]
  · rw [hupd, hcell]
  · rw [hupd]

theorem roundtrip_structure_witness :
    pdClean.activities ≠ [] ∧
      (roundTripProjectData pdClean).activities =
        [("P1".data,
          { information :=
              ("we <span style=\"color: green;\">did well</span> but " ++
                "<span style=\"color: red; font-weight: bold;\">risk</span> remains").data,
            alerts := ⟨["did well".data], [], ["risk".data]⟩ })] ∧
      (roundTripProjectData pdClean).upcoming_events = some "ev".data ∧
      (roundTripProjectData pdClean).metadata_title = some "T".data := by
  have h := roundtrip_structure pdClean (by decide) (by decide) (by decide)
    (by
      intro e he
      have he' : e = ("P1".data,
          { information := "we did well but risk remains".data,
            alerts := ⟨["did well".data], [], ["risk".data]⟩ }) := by
        simpa [pdClean] using he
      subst he'
      exact ⟨dClean, by decide, by decide, by decide, by decide⟩)
  exact ⟨by decide, h.1.trans (by decide), h.2.1.trans (by decide), h.2.2.trans (by decide)⟩

/-- C7 counterexample: the payload whose single project has information
`"ok"` and an advancement phrase `"ok"` does not round-trip: the reduced
information is the markup-injected string, not the original plain `"ok"`. -/
theorem roundtrip_counterexample :
    roundTripProjectData pdAlpha ≠ pdAlpha ∧
    (roundTripProjectData pdAlpha).activities =
      [("Alpha".data,
        { information := "<span style=\"color: green;\">ok</span>".data,
          alerts := ⟨["ok".data], [], []⟩ })] := by
  decide

end Acra
